import Mathlib

/-!
Shallow embedding of the yobmef chess engine core (board representation,
move application, static evaluation, alpha-beta search, magic-bitboard
generation, and the UCI command parser), together with theorems checking
the natural-language specification against it.

Conventions:
* Machine integers are modelled as `Nat`/`Int`; wrapping 64-bit
  multiplication is `% 2^64`; `u16`/`u8` subtraction that the source only
  performs on in-range values is Nat truncated subtraction (differences are
  noted where they matter).
* Rust `&mut self` methods are embedded as state-passing functions
  returning the updated value.
* Code of the repository that is not in the sources (`bitboard.rs`,
  `movegen/mod.rs`, `movegen/magic_utils.rs`, `Color::polarize`,
  `Board::in_check`) is either modelled from the spec (marked
  `Modelled from the spec:`) or abstracted into a parameter.
-/

namespace Yobmef

/-- Color, from chess.rs (White = 0, Black = 1). -/
inductive Color where
  | White
  | Black
deriving DecidableEq, Repr

/-- Color::other from chess.rs. -/
def Color.other : Color → Color
  | Color.White => Color.Black
  | Color.Black => Color.White

/-- Modelled from the spec: `Color::polarize` is not among the source files;
§3 of the spec says `polarize()` returns +1 for White, −1 for Black. -/
def Color.polarize : Color → Int
  | Color.White => 1
  | Color.Black => -1

/-- Piece, from chess.rs (discriminants 0..5). -/
inductive Piece where
  | Pawn
  | Knight
  | Bishop
  | Rook
  | Queen
  | King
deriving DecidableEq, Repr

/-- The discriminant of a piece (`piece as usize` in chess.rs). -/
def Piece.index : Piece → Nat
  | Piece.Pawn => 0
  | Piece.Knight => 1
  | Piece.Bishop => 2
  | Piece.Rook => 3
  | Piece.Queen => 4
  | Piece.King => 5

/-- Piece::from_usize from chess.rs. -/
def Piece.from_usize : Nat → Option Piece
  | 0 => some Piece.Pawn
  | 1 => some Piece.Knight
  | 2 => some Piece.Bishop
  | 3 => some Piece.Rook
  | 4 => some Piece.Queen
  | 5 => some Piece.King
  | _ => none

/-- Piece::from_char from chess.rs (lowercase p,n,b,r,q,k). -/
def Piece.from_char : Char → Option Piece
  | 'p' => some Piece.Pawn
  | 'n' => some Piece.Knight
  | 'b' => some Piece.Bishop
  | 'r' => some Piece.Rook
  | 'q' => some Piece.Queen
  | 'k' => some Piece.King
  | _ => none

/-- Piece::can_promote_to from chess.rs: everything except Pawn and King. -/
def Piece.can_promote_to (p : Piece) : Bool :=
  p ≠ Piece.Pawn && p ≠ Piece.King

/-- Square, from chess.rs: a u8 index, rank*8 + file. -/
structure Square where
  val : Nat
deriving DecidableEq, Repr

/-- Square::new from chess.rs. -/
def Square.new (rank file : Nat) : Square :=
  ⟨rank * 8 + file⟩

/-- Square::rank from chess.rs. -/
def Square.rank (s : Square) : Nat := s.val / 8

/-- Square::file from chess.rs. -/
def Square.file (s : Square) : Nat := s.val % 8

/-- Square::from_notation from chess.rs (two characters, rank then file). -/
def Square.from_notation (rank file : Char) : Option Square :=
  if rank < '1' || rank > '8' then none
  else if file < 'a' || file > 'h' then none
  else some ⟨(rank.toNat - '1'.toNat) * 8 + (file.toNat - 'a'.toNat)⟩

/-- Square::up from chess.rs. -/
def Square.up (s : Square) (ranks : Nat) : Option Square :=
  if s.rank + ranks > 7 then none else some (Square.new (s.rank + ranks) s.file)

/-- Square::down from chess.rs (u8 comparison guard, then subtraction). -/
def Square.down (s : Square) (ranks : Nat) : Option Square :=
  if ranks > s.rank then none else some (Square.new (s.rank - ranks) s.file)

/-- Square::flip_vertical from chess.rs. -/
def Square.flip_vertical (s : Square) : Square :=
  Square.new (7 - s.rank) s.file

/-- Modelled from the spec: `bitboard.rs` is not among the source files.
§3/§4.1: a Bitboard is a 64-bit set, bit n = square n occupied, closed
under the bitwise algebra, with wrapping multiply exposed for magic
hashing. Represented as a `Nat` that the operations keep below `2^64`. -/
structure BitBoard where
  b : Nat
deriving DecidableEq, Repr

/-- BitBoard::empty. -/
def BitBoard.emptyBB : BitBoard := ⟨0⟩

/-- BitBoard::get: test bit `sq`. -/
def BitBoard.get (bb : BitBoard) (sq : Square) : Bool :=
  bb.b.testBit sq.val

/-- BitBoard flip (flip_mut in the source): toggle one bit. -/
def BitBoard.flip (bb : BitBoard) (sq : Square) : BitBoard :=
  ⟨bb.b ^^^ (1 <<< sq.val)⟩

/-- Bitwise AND. -/
def BitBoard.band (x y : BitBoard) : BitBoard := ⟨x.b &&& y.b⟩

/-- Bitwise OR. -/
def BitBoard.bor (x y : BitBoard) : BitBoard := ⟨x.b ||| y.b⟩

/-- Wrapping 64-bit multiply (the bitboard "multiply" used by magic hashing). -/
def BitBoard.mul (x y : BitBoard) : BitBoard := ⟨(x.b * y.b) % (2 ^ 64)⟩

/-- Population count of the 64-bit value. -/
def BitBoard.count_ones (bb : BitBoard) : Nat :=
  (List.range 64).countP (fun i => bb.b.testBit i)

/-- Vertical flip: bit (8r+f) moves to bit (8(7−r)+f) (spec §4.1). -/
def BitBoard.flip_vertical (bb : BitBoard) : BitBoard :=
  ⟨(List.range 64).foldl
    (fun acc i => if bb.b.testBit i then acc ||| (1 <<< ((7 - i / 8) * 8 + i % 8)) else acc) 0⟩

/-- Movement, from chess/movement.rs. -/
structure Movement where
  from_square : Square
  to_square : Square
  promote : Option Piece
deriving DecidableEq, Repr

/-- Modelled from the spec: the string version of `Square::from_notation`
used by chess/movement.rs is not among the source files; §3 says a square
parses from two characters `a1`…`h8` (file letter then rank digit). -/
def Square.from_notation_str (s : String) : Option Square :=
  match s.data with
  | [file, rank] => Square.from_notation rank file
  | _ => none

/-- Movement::from_notation from chess/movement.rs: squares from the first
two and next two characters, optional promotion piece from the fifth.
(The byte-slicing `lan.get(0..2)` is modelled on the character list; the
inputs of interest are ASCII.) -/
def Movement.from_notation (lan : String) : Option Movement :=
  match Square.from_notation_str ⟨lan.data.take 2⟩ with
  | none => none
  | some from_square =>
    match Square.from_notation_str ⟨(lan.data.drop 2).take 2⟩ with
    | none => none
    | some to_square =>
      let promote := (lan.data.drop 4).head?.bind Piece.from_char
      some ⟨from_square, to_square, promote⟩

/-- CastlingSide, from chess.rs (discriminants 0..3). -/
inductive CastlingSide where
  | WhiteKingside
  | WhiteQueenside
  | BlackKingside
  | BlackQueenside
deriving DecidableEq, Repr

/-- The discriminant of a castling side (`side as u8` in chess.rs). -/
def CastlingSide.index : CastlingSide → Nat
  | CastlingSide.WhiteKingside => 0
  | CastlingSide.WhiteQueenside => 1
  | CastlingSide.BlackKingside => 2
  | CastlingSide.BlackQueenside => 3

/-- The discriminant of a colour (`color as usize` in chess.rs). -/
def Color.index : Color → Nat
  | Color.White => 0
  | Color.Black => 1

/-- Board, from chess.rs: six piece bitboards (union over colours), two
colour bitboards, en-passant square, side to move, and a 4-bit castling
mask. The arrays are length-6 and length-2 lists. -/
structure Board where
  pieces : List BitBoard
  color_combined : List BitBoard
  en_passant : Option Square
  side_to_move : Color
  castling : Nat
deriving DecidableEq, Repr

/-- Board::pieces accessor (read). -/
def Board.piecesBB (b : Board) (p : Piece) : BitBoard :=
  b.pieces.getD p.index BitBoard.emptyBB

/-- Board::color_combined accessor (read). -/
def Board.color_combinedBB (b : Board) (c : Color) : BitBoard :=
  b.color_combined.getD c.index BitBoard.emptyBB

/-- `self.pieces(piece).flip_mut(square)`: toggle a bit of one piece
bitboard in place. -/
def Board.flip_piece (b : Board) (p : Piece) (sq : Square) : Board :=
  { b with pieces := b.pieces.set p.index ((b.piecesBB p).flip sq) }

/-- `self.color_combined(color).flip_mut(square)`: toggle a bit of one
colour bitboard in place. -/
def Board.flip_color (b : Board) (c : Color) (sq : Square) : Board :=
  { b with color_combined := b.color_combined.set c.index ((b.color_combinedBB c).flip sq) }

/-- Board::empty from chess.rs. -/
def Board.emptyBoard : Board :=
  { pieces := List.replicate 6 BitBoard.emptyBB
    color_combined := List.replicate 2 BitBoard.emptyBB
    en_passant := none
    castling := 0b1111
    side_to_move := Color.White }

/-- Board::set_castling_mut from chess.rs: set or clear one bit of the
castling mask (u8 arithmetic; `!(1 << bit)` is the 8-bit complement). -/
def Board.set_castling_mut (b : Board) (side : CastlingSide) (can_castle : Bool) : Board :=
  if can_castle then { b with castling := b.castling ||| (1 <<< side.index) }
  else { b with castling := b.castling &&& (255 ^^^ (1 <<< side.index)) }

/-- Board::make_move_mut from chess.rs, lines 327–383, embedded
statement-by-statement (state passing in source order; every `return None`
in the source occurs before the first mutation, which the embedding
reflects by returning `none` with no board to hand back).
Notes kept faithful to the source:
* the mover's colour is White iff the White colour bitboard holds
  `from_square`, otherwise Black;
* a destination occupied by the mover's own colour is rejected;
* the moved piece kind is the first piece bitboard holding `from_square`;
* an invalid promotion target is rejected;
* the destination bit of the moving (or promoted) piece is toggled, the
  origin bit cleared, and both endpoints toggled in the mover's colour
  bitboard — an opponent piece on the destination is never removed;
* the double-move test uses u8 subtraction of ranks, which on the `== 2`
  comparison agrees with Nat truncated subtraction;
* the `unwrap` on `.down(1)`/`.up(1)` (reachable only off-board) is
  modelled with a default of square 0.
This definition is the always-succeeding tail of make_move_mut (clear the
origin, update the colour bitboard, en-passant square and side to move);
the head follows below. -/
def Board.make_move_mut_rest (b : Board) (color : Color) (piece : Piece) (m : Movement) : Board :=
  let b := b.flip_piece piece m.from_square
  let b := b.flip_color color m.from_square
  let b := b.flip_color color m.to_square
  let is_double_move :=
    if color = Color.White then m.to_square.rank - m.from_square.rank = 2
    else m.from_square.rank - m.to_square.rank = 2
  let b :=
    if piece = Piece.Pawn ∧ is_double_move then
      let passing_square :=
        if color = Color.White then (m.to_square.down 1).getD ⟨0⟩
        else (m.to_square.up 1).getD ⟨0⟩
      { b with en_passant := some passing_square }
    else { b with en_passant := none }
  { b with side_to_move := b.side_to_move.other }

/-- Board::make_move_mut head: colour determination, own-colour destination
check, piece lookup, promotion check; on success the tail
`make_move_mut_rest` above performs the remaining mutations. -/
def Board.make_move_mut (b : Board) (m : Movement) : Option Board :=
  let is_white := (b.color_combinedBB Color.White).get m.from_square
  let color := if is_white then Color.White else Color.Black
  if (b.color_combinedBB color).get m.to_square then none
  else
    match b.pieces.findIdx? (fun bb => bb.get m.from_square) with
    | none => none
    | some idx =>
      let piece := (Piece.from_usize idx).getD Piece.Pawn
      match m.promote with
      | some promoted_piece =>
        if ¬ promoted_piece.can_promote_to then none
        else some (Board.make_move_mut_rest (b.flip_piece promoted_piece m.to_square) color piece m)
      | none =>
        some (Board.make_move_mut_rest (b.flip_piece piece m.to_square) color piece m)

/-- Board::make_move from chess.rs: clone, run make_move_mut ignoring its
result, return the clone (hence on failure the original board). -/
def Board.make_move (b : Board) (m : Movement) : Board :=
  (b.make_move_mut m).getD b

/-- Rust `str::split(sep)` semantics on a character list: split at every
separator, keeping empty chunks (the result is never empty). -/
def splitChar (sep : Char) : List Char → List (List Char)
  | [] => [[]]
  | c :: cs =>
    let rest := splitChar sep cs
    if c = sep then [] :: rest
    else match rest with
      | [] => [[c]]
      | w :: ws => (c :: w) :: ws

/-- One rank chunk of the FEN piece-placement field (the inner `for
piece_char in rank.chars()` loop of Board::from_fen): digits advance the
file, letters place a piece of the corresponding colour. -/
def Board.from_fen_rank (rank_index : Nat) : List Char → Board → Nat → Option Board
  | [], b, _ => some b
  | piece_char :: rest, b, file_index =>
    if piece_char.isDigit then
      Board.from_fen_rank rank_index rest b (file_index + (piece_char.toNat - '0'.toNat))
    else
      match Piece.from_char piece_char.toLower with
      | none => none
      | some piece =>
        let color := if piece_char.isUpper then Color.White else Color.Black
        let square := Square.new rank_index file_index
        let b := b.flip_piece piece square
        let b := b.flip_color color square
        Board.from_fen_rank rank_index rest b (file_index + 1)

/-- The `while let Some(rank) = board_split.next()` loop of
Board::from_fen: ranks from the top down, `rank_index` decremented at the
start of each iteration (Nat subtraction; the source's u8 counter behaves
identically for the at-most-8 ranks of a well-formed FEN). -/
def Board.from_fen_ranks : List (List Char) → Board → Nat → Option Board
  | [], b, _ => some b
  | rank :: rest, b, rank_index =>
    match Board.from_fen_rank (rank_index - 1) rank b 0 with
    | none => none
    | some b => Board.from_fen_ranks rest b (rank_index - 1)

/-- Board::from_fen from chess.rs: piece placement, side to move, castling
rights, en-passant square (half/full-move counters ignored). `contains` is
evaluated on the character list. -/
def Board.from_fen (s : String) : Option Board :=
  let fen_split := splitChar ' ' s.data
  match fen_split with
  | [] => none
  | placement :: fen_rest =>
    match Board.from_fen_ranks (splitChar '/' placement) Board.emptyBoard 8 with
    | none => none
    | some b =>
      match fen_rest with
      | [] => none
      | side :: fen_rest =>
        let b := { b with side_to_move := if side = ['w'] then Color.White else Color.Black }
        match fen_rest with
        | [] => none
        | castling_string :: fen_rest =>
          let b := b.set_castling_mut CastlingSide.WhiteKingside (castling_string.contains 'K')
          let b := b.set_castling_mut CastlingSide.WhiteQueenside (castling_string.contains 'Q')
          let b := b.set_castling_mut CastlingSide.BlackKingside (castling_string.contains 'k')
          let b := b.set_castling_mut CastlingSide.BlackQueenside (castling_string.contains 'q')
          match fen_rest with
          | [] => none
          | en_passant :: _ =>
            match en_passant with
            | [c0, c1] => some { b with en_passant := Square.from_notation c1 c0 }
            | _ => some b

/-- STARTING_FEN from chess.rs. -/
def STARTING_FEN : String := "rnbqkbnr/pppppppp/8/8/8/8/PPPPPPPP/RNBQKBNR w KQkq - 0 1"

/-- Board::from_start_pos from chess.rs (the `unwrap` is modelled with the
empty board as default; `from_fen STARTING_FEN` is in fact `some`). -/
def Board.from_start_pos : Board :=
  (Board.from_fen STARTING_FEN).getD Board.emptyBoard

/-! Evaluation, from eval.rs. -/

/-- PAWN_VALUE_TABLE from eval.rs. -/
def PAWN_VALUE_TABLE : List Int :=
  [0,  0,  0,   0,   0,   0,  0,  0,
   5,  10, 10, -20, -20,  10, 10, 5,
   5, -5, -10,  0,   0,  -10, -5,  5,
   0,  0,  0,   20,  20,  0,   0,  0,
   5,  5,  10,  25,  25,  10,  5,  5,
   10, 10, 20,  30,  30,  20,  10, 10,
   50, 50, 50,  50,  50,  50,  50, 50,
   0,  0,  0,   0,   0,   0,   0,  0]

/-- KNIGHT_VALUE_TABLE from eval.rs. -/
def KNIGHT_VALUE_TABLE : List Int :=
  [-50, -40, -30, -30, -30, -30, -40, -50,
   -40, -20,  0,   5,   5,   0,  -20, -40,
   -30,  5,   10,  15,  15,  10,  5,  -30,
   -30,  0,   15,  20,  20,  15,  0,  -30,
   -30,  5,   15,  20,  20,  15,  5,  -30,
   -30,  0,   10,  15,  15,  10,  0,  -30,
   -40, -20,  0,   0,   0,   0,  -20, -40,
   -50, -40, -30, -30, -30, -30, -40, -50]

/-- BISHOP_VALUE_TABLE from eval.rs. -/
def BISHOP_VALUE_TABLE : List Int :=
  [-20, -10, -10, -10, -10, -10, -10, -20,
   -10,  5,   0,   0,   0,   0,   5,  -10,
   -10,  10,  10,  10,  10,  10,  10, -10,
   -10,  0,   10,  10,  10,  10,  0,  -10,
   -10,  5,   5,   10,  10,  5,   5,  -10,
   -10,  0,   5,   10,  10,  5,   0,  -10,
   -10,  0,   0,   0,   0,   0,   0,  -10,
   -20, -10, -10, -10, -10, -10, -10, -20]

/-- ROOK_VALUE_TABLE from eval.rs. -/
def ROOK_VALUE_TABLE : List Int :=
  [-5,    0,   0,   5,  5,   0,   0,  -5,
   -5,    0,   0,   0,  0,   0,   0,  -5,
   -5,    0,   0,   0,  0,   0,   0,  -5,
   -5,    0,   0,   0,  0,   0,   0,  -5,
   -5,    0,   0,   0,  0,   0,   0,  -5,
   -5,    0,   0,   0,  0,   0,   0,  -5,
    5,    10,  10,  10, 10,  10,  10,  5,
    0,    0,   0,   0,  0,   0,   0,   0]

/-- QUEEN_VALUE_TABLE from eval.rs. -/
def QUEEN_VALUE_TABLE : List Int :=
  [-20, -10, -10, -5, -5, -10, -10, -20,
   -10,  0,   5,   0,  0,  0,   0,  -10,
   -10,  5,   5,   5,  5,  5,   0,  -10,
    0,   0,   5,   5,  5,  5,   0,  -5,
   -5,   0,   5,   5,  5,  5,   0,  -5,
   -10,  0,   5,   5,  5,  5,   0,  -10,
   -10,  0,   0,   0,  0,  0,   0,  -10,
   -20, -10, -10, -5, -5, -10, -10, -20]

/-- KING_VALUE_TABLE_MIDDLEGAME from eval.rs. -/
def KING_VALUE_TABLE_MIDDLEGAME : List Int :=
  [ 20,  200, 180,  0,   0,   10,  180,  20,
    20,  20,  0,    0,   0,   0,   20,   20,
   -10, -20, -20,  -20, -20, -20, -20,  -10,
   -20, -30, -30,  -40, -40, -30, -30,  -20,
   -30, -40, -40,  -50, -50, -40, -40,  -30,
   -30, -40, -40,  -50, -50, -40, -40,  -30,
   -30, -40, -40,  -50, -50, -40, -40,  -30,
   -30, -40, -40,  -50, -50, -40, -40,  -30]

/-- The base material value of a piece, from get_score_for_piece in
eval.rs (Pawn 100, Knight 320, Bishop 330, Rook 500, Queen 975, King 0). -/
def piece_value : Piece → Int
  | Piece.Pawn => 100
  | Piece.Knight => 320
  | Piece.Bishop => 330
  | Piece.Rook => 500
  | Piece.Queen => 975
  | Piece.King => 0

/-- The piece-square table of a piece, from get_score_for_piece in eval.rs. -/
def piece_table : Piece → List Int
  | Piece.Pawn => PAWN_VALUE_TABLE
  | Piece.Knight => KNIGHT_VALUE_TABLE
  | Piece.Bishop => BISHOP_VALUE_TABLE
  | Piece.Rook => ROOK_VALUE_TABLE
  | Piece.Queen => QUEEN_VALUE_TABLE
  | Piece.King => KING_VALUE_TABLE_MIDDLEGAME

/-- get_score_for_piece from eval.rs: restrict the piece bitboard to the
colour, vertically flip it for Black, and sum `base + table[i]` over the
set squares. -/
def get_score_for_piece (board : Board) (color : Color) (piece : Piece) : Int :=
  let value := piece_value piece
  let table := piece_table piece
  let bitboard := (board.piecesBB piece).band (board.color_combinedBB color)
  let bitboard := if color = Color.Black then bitboard.flip_vertical else bitboard
  ((List.range 64).map (fun i =>
    (if bitboard.get ⟨i⟩ then (1 : Int) else 0) * (value + table.getD i 0))).sum

/-- MATE from eval.rs (10 000, strictly below the search infinity i16::MAX). -/
def MATE : Int := 10000

/-- get_score_for_color from eval.rs. -/
def get_score_for_color (board : Board) (color : Color) : Int :=
  get_score_for_piece board color Piece.Pawn
  + get_score_for_piece board color Piece.Knight
  + get_score_for_piece board color Piece.Bishop
  + get_score_for_piece board color Piece.Rook
  + get_score_for_piece board color Piece.Queen
  + get_score_for_piece board color Piece.King

/-- get_score_ongoing from eval.rs: White's score minus Black's. -/
def get_score_ongoing (board : Board) : Int :=
  get_score_for_color board Color.White - get_score_for_color board Color.Black

/-- get_score from eval.rs. `Board::in_check` belongs to code that is not
among the source files (spec §4.2 describes it as: the king's square is
attacked by the opponent's full attack set); it is therefore taken as an
explicit function parameter. -/
def get_score (in_check : Board → Bool) (board : Board) (legal_move_count : Nat) : Int :=
  if legal_move_count = 0 ∧ in_check board then MATE * board.side_to_move.other.polarize
  else if legal_move_count > 0 then get_score_ongoing board
  else 0

/-! Search, from search.rs.

`movegen::get_legal_moves` belongs to code that is not among the source
files (spec §4.4 describes it: every legal chess move, deterministic order,
no duplicates), so the search is embedded over an abstract game interface
bundling the external collaborators of Searcher::alphabeta: the move
generator, move application (`Board::make_move`), the evaluator
(`eval::get_score`, whose chess instance is `get_score` above) and the
side to move. -/

/-- The collaborators of the search, abstracted:
`legal_moves` is movegen::get_legal_moves, `make_move` is
Board::make_move, `score` is eval::get_score (board, legal-move count),
`stm` is Board::side_to_move. -/
structure Game (B M : Type) where
  legal_moves : B → List M
  make_move : B → M → B
  score : B → Nat → Int
  stm : B → Color

/-- SearchResult from search.rs: evaluation, best move, and depth searched
below this position. -/
structure SearchResult (M : Type) where
  eval : Int
  mv : Option M
  depth : Nat
deriving DecidableEq, Repr

/-- Searcher from search.rs: transposition table and statistics. The
HashMap is modelled as an association list whose first entry for a key is
the binding (insertion prepends, so it overwrites). -/
structure Searcher (B M : Type) where
  tp : List (B × SearchResult M)
  nodes : Nat
  pruned : Nat
  cached : Nat

/-- Searcher::new from search.rs. -/
def Searcher.new (B M : Type) : Searcher B M :=
  { tp := [], nodes := 0, pruned := 0, cached := 0 }

/-- `self.tp.get(board)`: first binding of the key in the table. -/
def tpGet [DecidableEq B] (tp : List (B × SearchResult M)) (board : B) : Option (SearchResult M) :=
  (tp.find? (fun e => e.1 = board)).map (fun e => e.2)

/-- The transposition probe at the top of Searcher::alphabeta: a stored
entry is returned iff its depth is at least `depth_to_go`. -/
def tpProbe [DecidableEq B] (tp : List (B × SearchResult M)) (board : B) (depth_to_go : Nat) :
    Option (SearchResult M) :=
  match tpGet tp board with
  | some sr => if sr.depth ≥ depth_to_go then some sr else none
  | none => none

/-- `self.tp.insert(board, sr)` (overwriting insert). -/
def tpInsert [DecidableEq B] (tp : List (B × SearchResult M)) (board : B) (sr : SearchResult M) :
    List (B × SearchResult M) :=
  (board, sr) :: tp

/-- sort_by_promise from search.rs: stable ascending sort of the moves by
the static score of the resulting position (the move count passed to the
evaluator is the parent's), reversed when White is to move. Rust's
`sort_by_key` is a stable ascending sort, which insertion sort by the key
order reproduces exactly. -/
def sort_by_promise (g : Game B M) (board : B) (moves : List M) : List M :=
  let legal_move_count := moves.length
  let sorted := List.insertionSort
    (fun m1 m2 => g.score (g.make_move board m1) legal_move_count
                ≤ g.score (g.make_move board m2) legal_move_count) moves
  if g.stm board = Color.White then sorted.reverse else sorted

/-- The leaf evaluation of Searcher::alphabeta (search.rs lines 118–133):
the evaluator's score, shifted by `ply · polarize(side_to_move)` when its
absolute value is MATE. -/
def leafEval (g : Game B M) (board : B) (depth : Nat) (n : Nat) : Int :=
  let e := g.score board n
  if e.natAbs = MATE.natAbs then e + (depth : Int) * (g.stm board).polarize else e

/-- The leaf SearchResult of Searcher::alphabeta: depth 0 and no move. -/
def leafStep (g : Game B M) (board : B) (depth : Nat) (n : Nat) (st : Searcher B M) :
    SearchResult M × Searcher B M :=
  (⟨leafEval g board depth n, none, 0⟩, st)

/-- The White for-loop of Searcher::alphabeta (search.rs lines 147–161):
`child` performs the recursive call at the current alpha; sr/alpha update,
then prune (with the pruned counter) when `beta ≤ alpha`. -/
def abLoopW (child : M → Int → Searcher B M → SearchResult M × Searcher B M) (beta : Int) :
    List M → SearchResult M → Int → Searcher B M → SearchResult M × Searcher B M
  | [], sr, _alpha, st => (sr, st)
  | mv :: rest, sr, alpha, st =>
    let res := child mv alpha st
    let score := res.1
    let st := res.2
    let sr := if score.eval > sr.eval then { sr with eval := score.eval, mv := some mv } else sr
    let alpha := max alpha score.eval
    if beta ≤ alpha then (sr, { st with pruned := st.pruned + 1 })
    else abLoopW child beta rest sr alpha st

/-- The Black for-loop of Searcher::alphabeta (search.rs lines 162–177). -/
def abLoopB (child : M → Int → Searcher B M → SearchResult M × Searcher B M) (alpha : Int) :
    List M → SearchResult M → Int → Searcher B M → SearchResult M × Searcher B M
  | [], sr, _beta, st => (sr, st)
  | mv :: rest, sr, beta, st =>
    let res := child mv beta st
    let score := res.1
    let st := res.2
    let sr := if score.eval < sr.eval then { sr with eval := score.eval, mv := some mv } else sr
    let beta := min beta score.eval
    if beta ≤ alpha then (sr, { st with pruned := st.pruned + 1 })
    else abLoopB child alpha rest sr beta st

/-- Searcher::alphabeta from search.rs, reparameterised by
`depth_to_go = max_depth − depth` (the u16 difference the source computes
at entry; recursion is structural on it). Statement order follows the
source: node count, transposition probe, move generation, leaf return,
move ordering, the per-colour alpha-beta loop, transposition store. -/
def alphabeta_go [DecidableEq B] (g : Game B M) :
    Nat → B → Nat → Int → Int → Searcher B M → SearchResult M × Searcher B M
  | 0, board, depth, _alpha, _beta, st =>
    let st := { st with nodes := st.nodes + 1 }
    match tpProbe st.tp board 0 with
    | some sr => (sr, { st with cached := st.cached + 1 })
    | none =>
      let moves := g.legal_moves board
      leafStep g board depth moves.length st
  | d + 1, board, depth, alpha, beta, st =>
    let st := { st with nodes := st.nodes + 1 }
    match tpProbe st.tp board (d + 1) with
    | some sr => (sr, { st with cached := st.cached + 1 })
    | none =>
      let moves := g.legal_moves board
      if moves.length = 0 then leafStep g board depth moves.length st
      else
        let sorted := sort_by_promise g board moves
        let sr0 : SearchResult M := ⟨-32767 * (g.stm board).polarize, none, d + 1⟩
        if g.stm board = Color.White then
          let res := abLoopW (fun mv a s => alphabeta_go g d (g.make_move board mv) (depth + 1) a beta s)
            beta sorted sr0 alpha st
          (res.1, { res.2 with tp := tpInsert res.2.tp board res.1 })
        else
          let res := abLoopB (fun mv bb s => alphabeta_go g d (g.make_move board mv) (depth + 1) alpha bb s)
            alpha sorted sr0 beta st
          (res.1, { res.2 with tp := tpInsert res.2.tp board res.1 })

/-- Searcher::alphabeta with the source's (max_depth, depth) signature;
`max_depth − depth` is the u16 subtraction the source performs (the source
never calls itself with depth > max_depth). -/
def alphabeta [DecidableEq B] (g : Game B M) (board : B) (max_depth depth : Nat)
    (alpha beta : Int) (st : Searcher B M) : SearchResult M × Searcher B M :=
  alphabeta_go g (max_depth - depth) board depth alpha beta st

/-- Searcher::search_depth from search.rs: reset statistics, then a full
window alpha-beta from the root (i16::MIN, i16::MAX). The transposition
table is kept, as in the source. -/
def search_depth [DecidableEq B] (g : Game B M) (st : Searcher B M) (board : B) (depth : Nat) :
    SearchResult M × Searcher B M :=
  alphabeta g board depth 0 (-32768) 32767 { st with nodes := 0, pruned := 0, cached := 0 }

/-- The White for-loop of alphabeta with the transposition table and the
statistics removed (used to state what alpha-beta computes independently
of the table). -/
def pureLoopW (child : M → Int → SearchResult M) (beta : Int) :
    List M → SearchResult M → Int → SearchResult M
  | [], sr, _alpha => sr
  | mv :: rest, sr, alpha =>
    let score := child mv alpha
    let sr := if score.eval > sr.eval then { sr with eval := score.eval, mv := some mv } else sr
    let alpha := max alpha score.eval
    if beta ≤ alpha then sr
    else pureLoopW child beta rest sr alpha

/-- The Black for-loop of alphabeta with the transposition table and the
statistics removed. -/
def pureLoopB (child : M → Int → SearchResult M) (alpha : Int) :
    List M → SearchResult M → Int → SearchResult M
  | [], sr, _beta => sr
  | mv :: rest, sr, beta =>
    let score := child mv beta
    let sr := if score.eval < sr.eval then { sr with eval := score.eval, mv := some mv } else sr
    let beta := min beta score.eval
    if beta ≤ alpha then sr
    else pureLoopB child alpha rest sr beta

/-- Searcher::alphabeta with the transposition probe and store removed
(and, with them, the statistics): the pure alpha-beta recursion of
search.rs, used for the table-free reading of the root-equivalence claim. -/
def abPure (g : Game B M) : Nat → B → Nat → Int → Int → SearchResult M
  | 0, board, depth, _alpha, _beta =>
    ⟨leafEval g board depth (g.legal_moves board).length, none, 0⟩
  | d + 1, board, depth, alpha, beta =>
    let moves := g.legal_moves board
    if moves.length = 0 then ⟨leafEval g board depth moves.length, none, 0⟩
    else
      let sorted := sort_by_promise g board moves
      let sr0 : SearchResult M := ⟨-32767 * (g.stm board).polarize, none, d + 1⟩
      if g.stm board = Color.White then
        pureLoopW (fun mv a => abPure g d (g.make_move board mv) (depth + 1) a beta) beta sorted sr0 alpha
      else
        pureLoopB (fun mv bb => abPure g d (g.make_move board mv) (depth + 1) alpha bb) alpha sorted sr0 beta

/-- The maximum of a list of integers (head-seeded left fold; 0 for the
empty list, which minimax never uses). -/
def maxOf : List Int → Int
  | [] => 0
  | x :: xs => xs.foldl max x

/-- The minimum of a list of integers. -/
def minOf : List Int → Int
  | [] => 0
  | x :: xs => xs.foldl min x

/-- Full minimax to the same depth, per spec §8: the same leaf evaluation
as alphabeta, and at inner nodes the plain maximum (White to move) or
minimum (Black to move) of the children's values over every legal move —
no window, no pruning, no transposition table. Parameterised like
`alphabeta_go` by the remaining depth. -/
def minimax (g : Game B M) : Nat → B → Nat → Int
  | 0, board, depth => leafEval g board depth (g.legal_moves board).length
  | d + 1, board, depth =>
    let moves := g.legal_moves board
    if moves.length = 0 then leafEval g board depth moves.length
    else
      let vals := moves.map (fun mv => minimax g d (g.make_move board mv) (depth + 1))
      if g.stm board = Color.White then maxOf vals else minOf vals

/-! Magic-bitboard generation, from movegen/magic.rs. The helpers
`get_occupancy_mask` and `get_questions_and_answers` live in
movegen/magic_utils.rs, which is not among the source files; they are
modelled from spec §4.3. -/

/-- Modelled from the spec: one ray of the occupancy mask (§4.3): the
squares reached from the source by repeated steps of (dr, df) that stay on
the board, excluding the source and excluding the last square of the board
in that direction (a square is kept only if one further step also stays on
the board). -/
def ray_squares (sq : Square) (dr df : Int) : List Square :=
  (List.range 7).filterMap (fun k =>
    let k : Int := (k : Int) + 1
    let r := (sq.rank : Int) + k * dr
    let f := (sq.file : Int) + k * df
    if 0 ≤ r ∧ r ≤ 7 ∧ 0 ≤ f ∧ f ≤ 7 ∧
       0 ≤ r + dr ∧ r + dr ≤ 7 ∧ 0 ≤ f + df ∧ f + df ≤ 7
    then some (Square.new r.toNat f.toNat) else none)

/-- Modelled from the spec: get_occupancy_mask (§4.3) — the union of the
four rays of the slider (horizontal/vertical for the rook, diagonal for
the bishop), excluding source and ray-terminal edges. -/
def get_occupancy_mask (sq : Square) (p : Piece) : BitBoard :=
  let dirs : List (Int × Int) :=
    match p with
    | Piece.Rook => [(1, 0), (-1, 0), (0, 1), (0, -1)]
    | Piece.Bishop => [(1, 1), (1, -1), (-1, 1), (-1, -1)]
    | _ => []
  dirs.foldl (fun acc d =>
    (ray_squares sq d.1 d.2).foldl (fun acc2 s => acc2.bor ⟨1 <<< s.val⟩) acc) BitBoard.emptyBB

/-- Modelled from the spec: the number of questions enumerated by
get_questions_and_answers (§4.3) — all `2^popcount(mask)` blocker subsets
of the occupancy mask. -/
def n_questions (sq : Square) (p : Piece) : Nat :=
  2 ^ (get_occupancy_mask sq p).count_ones

/-- `u64::leading_zeros` on a 64-bit value (usize on the target): 64 minus
the bit length (the number of exponents `i < 64` with `2^i ≤ n`), hence 64
for zero and `63 − ⌊log2 n⌋` otherwise. -/
def u64_leading_zeros (n : Nat) : Nat :=
  64 - (List.range 64).countP (fun i => 2 ^ i ≤ n)

/-- The hash right-shift chosen by gen_single_magic (movegen/magic.rs line
74): `questions.len().leading_zeros() + 1`. -/
def magic_right_shift (sq : Square) (p : Piece) : Nat :=
  u64_leading_zeros (n_questions sq p) + 1

/-- The inner collision loop of gen_single_magic (movegen/magic.rs lines
89–100): hash every question through the candidate; fail on the first
slot already holding an answer (`new_answers[j] != empty`). -/
def collision_free (shift : Nat) (magic : BitBoard) :
    List BitBoard → List (BitBoard × BitBoard) → Bool
  | _, [] => true
  | table, (q, a) :: rest =>
    let j := (magic.mul q).b >>> shift
    if table.getD j BitBoard.emptyBB = BitBoard.emptyBB then
      collision_free shift magic (table.set j a) rest
    else false

/-- The collision test applied to one candidate magic: a fresh
`vec![empty; questions.len()]` answer table, then the loop above. -/
def collision_test (questions answers : List BitBoard) (shift : Nat) (magic : BitBoard) : Bool :=
  collision_free shift magic (List.replicate questions.length BitBoard.emptyBB)
    (questions.zip answers)

/-- The candidate loop of gen_single_magic (movegen/magic.rs lines 80–105)
over an explicit stream of random candidates (the source draws them from a
seeded StdRng of the external rand crate): a candidate whose wrapping
product with the occupancy mask has fewer than 6 set bits is skipped
(`continue`) before any collision test; otherwise it is collision-tested
and accepted if the test passes. -/
def gen_magic_loop (mask : BitBoard) (questions answers : List BitBoard) (shift : Nat) :
    List BitBoard → Option BitBoard
  | [] => none
  | cand :: rest =>
    if (mask.mul cand).count_ones < 6 then gen_magic_loop mask questions answers shift rest
    else if collision_test questions answers shift cand then some cand
    else gen_magic_loop mask questions answers shift rest

/-- The candidates on which gen_magic_loop invokes the collision test, in
order: exactly the drawn candidates that pass the quality filter, up to
and including the accepted one. -/
def tested_candidates (mask : BitBoard) (questions answers : List BitBoard) (shift : Nat) :
    List BitBoard → List BitBoard
  | [] => []
  | cand :: rest =>
    if (mask.mul cand).count_ones < 6 then tested_candidates mask questions answers shift rest
    else if collision_test questions answers shift cand then [cand]
    else cand :: tested_candidates mask questions answers shift rest

/-- The number of set bits in the top byte (bits 56–63) of a bitboard —
the quantity the spec's quality filter is stated about. -/
def top_byte_ones (bb : BitBoard) : Nat :=
  (List.range 8).countP (fun i => bb.b.testBit (56 + i))

/-! The UCI protocol adapter, from uci.rs. -/

/-- GoOptions from uci.rs (numeric fields modelled as `Nat` of the
corresponding width). -/
structure GoOptions where
  search_moves : Option (List Movement)
  white_time : Option Nat
  black_time : Option Nat
  white_increment : Option Nat
  black_increment : Option Nat
  moves_to_go : Option Nat
  depth : Option Nat
  nodes : Option Nat
  mate : Option Nat
  move_time : Option Nat
deriving DecidableEq, Repr

/-- GoOptions::empty from uci.rs. -/
def GoOptions.emptyOptions : GoOptions :=
  ⟨none, none, none, none, none, none, none, none, none, none⟩

/-- GoInstruction from uci.rs. -/
inductive GoInstruction where
  | Ponder
  | Infinite
deriving DecidableEq, Repr

/-- Go from uci.rs. -/
structure Go where
  instruction : GoInstruction
  option : GoOptions
deriving DecidableEq, Repr

/-- Go::new from uci.rs. -/
def Go.newGo (instruction : GoInstruction) : Go :=
  ⟨instruction, GoOptions.emptyOptions⟩

/-- EngineMessage from uci.rs. -/
inductive EngineMessage where
  | UCI
  | Debug (flag : Bool)
  | IsReady
  | UCINewGame
  | Position (board : Board) (moves : List Movement)
  | Go (go : Go)
  | Stop
  | PonderHit
  | Quit
  | DontMissTheShredderChessAnnualBarbeque
deriving DecidableEq, Repr

/-- `u64::from_str(..).ok()` and friends: an unsigned decimal integer that
fits in the given width. (Rust also tolerates a leading `+`, which no UCI
front-end emits; digits-only is modelled.) -/
def uint_from_str (bits : Nat) (s : String) : Option Nat :=
  if s.data ≠ [] ∧ s.data.all Char.isDigit then
    let v := s.data.foldl (fun n c => n * 10 + (c.toNat - '0'.toNat)) 0
    if v < 2 ^ bits then some v else none
  else none

/-- get_moves from uci.rs: parse every remaining word as a movement,
failing if any fails. -/
def get_moves (words : List String) : Option (List Movement) :=
  words.mapM Movement.from_notation

/-- The `position startpos` skip loop of uci.rs: drop words until after
`moves`, failing if the word iterator is exhausted first. -/
def skip_until_moves : List String → Option (List String)
  | [] => none
  | w :: rest => if w = "moves" then some rest else skip_until_moves rest

/-- The `position fen` collect loop of uci.rs: gather the FEN chunks up to
`moves`, failing if `moves` never appears. -/
def collect_until_moves : List String → Option (List String × List String)
  | [] => none
  | w :: rest =>
    if w = "moves" then some ([], rest)
    else (collect_until_moves rest).map (fun p => (w :: p.1, p.2))

/-- `fen.join(" ")` at the character-list level. -/
def join_words (ws : List String) : String :=
  ⟨((ws.map String.data).intersperse [' ']).flatten⟩

/-- The `go` option loop of uci.rs: a running `Option<Go>` accumulator;
`ponder`/`infinite` (re)create it, every other recognised option requires
it to exist already (`go.as_mut()?`) and stores its argument; unknown
words are skipped. The outer `none` is the propagated early return of
`parse`, the inner one an accumulator that was never created. -/
def parse_go_loop : List String → Option Go → Option (Option Go)
  | [], go => some go
  | w :: rest, go =>
    if w = "ponder" then parse_go_loop rest (some (Go.newGo GoInstruction.Ponder))
    else if w = "infinite" then parse_go_loop rest (some (Go.newGo GoInstruction.Infinite))
    else if w = "searchmoves" then
      match get_moves rest with
      | none => none
      | some moves =>
        match go with
        | none => none
        | some go => some (some { go with option := { go.option with search_moves := some moves } })
    else if w = "wtime" then
      match rest, go with
      | [], _ => none
      | _ :: _, none => none
      | arg :: rest, some go =>
        parse_go_loop rest (some { go with option := { go.option with white_time := uint_from_str 64 arg } })
    else if w = "btime" then
      match rest, go with
      | [], _ => none
      | _ :: _, none => none
      | arg :: rest, some go =>
        parse_go_loop rest (some { go with option := { go.option with black_time := uint_from_str 64 arg } })
    else if w = "winc" then
      match rest, go with
      | [], _ => none
      | _ :: _, none => none
      | arg :: rest, some go =>
        parse_go_loop rest (some { go with option := { go.option with white_increment := uint_from_str 32 arg } })
    else if w = "binc" then
      match rest, go with
      | [], _ => none
      | _ :: _, none => none
      | arg :: rest, some go =>
        parse_go_loop rest (some { go with option := { go.option with black_increment := uint_from_str 32 arg } })
    else if w = "movestogo" then
      match rest, go with
      | [], _ => none
      | _ :: _, none => none
      | arg :: rest, some go =>
        parse_go_loop rest (some { go with option := { go.option with moves_to_go := uint_from_str 8 arg } })
    else if w = "depth" then
      match rest, go with
      | [], _ => none
      | _ :: _, none => none
      | arg :: rest, some go =>
        parse_go_loop rest (some { go with option := { go.option with depth := uint_from_str 8 arg } })
    else if w = "nodes" then
      match rest, go with
      | [], _ => none
      | _ :: _, none => none
      | arg :: rest, some go =>
        parse_go_loop rest (some { go with option := { go.option with nodes := uint_from_str 64 arg } })
    else if w = "mate" then
      match rest, go with
      | [], _ => none
      | _ :: _, none => none
      | arg :: rest, some go =>
        parse_go_loop rest (some { go with option := { go.option with mate := uint_from_str 8 arg } })
    else if w = "movetime" then
      match rest, go with
      | [], _ => none
      | _ :: _, none => none
      | arg :: rest, some go =>
        parse_go_loop rest (some { go with option := { go.option with move_time := uint_from_str 32 arg } })
    else parse_go_loop rest go

/-- parse from uci.rs: split the line on single spaces and dispatch on the
first word. The `debug` command recognises the arguments `true` and
`false` (uci.rs lines 94–98); anything else — including a missing
argument — yields no message. -/
def parse (s : String) : Option EngineMessage :=
  match (splitChar ' ' s.data).map (fun cs => (⟨cs⟩ : String)) with
  | [] => none
  | w :: words =>
    if w = "uci" then some EngineMessage.UCI
    else if w = "debug" then
      match words with
      | [] => none
      | arg :: _ =>
        if arg = "true" then some (EngineMessage.Debug true)
        else if arg = "false" then some (EngineMessage.Debug false)
        else none
    else if w = "isready" then some EngineMessage.IsReady
    else if w = "ucinewgame" then some EngineMessage.UCINewGame
    else if w = "position" then
      match words with
      | [] => none
      | kind :: words =>
        if kind = "startpos" then
          match skip_until_moves words with
          | none => none
          | some rest =>
            match get_moves rest with
            | none => none
            | some moves => some (EngineMessage.Position Board.from_start_pos moves)
        else if kind = "fen" then
          match collect_until_moves words with
          | none => none
          | some (fen_words, rest) =>
            match Board.from_fen (join_words fen_words) with
            | none => none
            | some board =>
              match get_moves rest with
              | none => none
              | some moves => some (EngineMessage.Position board moves)
        else none
    else if w = "go" then
      match parse_go_loop words none with
      | none => none
      | some none => none
      | some (some go) => some (EngineMessage.Go go)
    else if w = "stop" then some EngineMessage.Stop
    else if w = "ponderhit" then some EngineMessage.PonderHit
    else if w = "quit" then some EngineMessage.Quit
    else if w = "uwu" then some EngineMessage.DontMissTheShredderChessAnnualBarbeque
    else none

/-! Concrete instances and proof apparatus. -/

/-- The classical fail-soft alpha-beta bracketing of a computed value `r`
against the true value `v` inside a window: exact inside the window, a
bracketed bound on the failing side otherwise. -/
def threeway (r v alpha beta : Int) : Prop :=
  (alpha < v → v < beta → r = v) ∧
  (v ≤ alpha → v ≤ r ∧ r ≤ alpha) ∧
  (beta ≤ v → beta ≤ r ∧ r ≤ v)

/-- A small concrete game (boards and moves are labels, `make_move`
follows the label) with a transposition: position 4 is reachable both
through 1 and through 2. Searching it to depth 3 poisons the
transposition table: under 1, position 4 is searched inside a narrowed
window, pruned, and stored with its partial value; under 2 the stored
entry is returned as exact. The static sort keys (`score` with a nonzero
move count) deliberately differ from the leaf values (`score` with move
count 0), exactly as the engine's evaluator distinguishes a position's
static score from its game-over score. -/
def gC3 : Game Nat Nat :=
  { legal_moves := fun b =>
      match b with
      | 0 => [1, 2]
      | 1 => [3, 4]
      | 2 => [4]
      | 3 => [5]
      | 4 => [6, 7]
      | _ => []
    make_move := fun _ m => m
    score := fun b n =>
      match b with
      | 1 => 100
      | 2 => 50
      | 3 => 0
      | 4 => 1
      | 5 => 0
      | 6 => if n = 0 then 0 else 10
      | 7 => 5
      | _ => 0
    stm := fun b => if b = 0 ∨ b = 3 ∨ b = 4 then Color.White else Color.Black }

/-- A one-position game whose evaluator reports a mate score for White to
move (used to exercise the mate-distance shift at a leaf). -/
def gMate : Game Nat Nat :=
  { legal_moves := fun _ => []
    make_move := fun _ m => m
    score := fun _ _ => -10000
    stm := fun _ => Color.White }

/-- The FEN of the repository's own promotion-with-capture test
(test_make_move_promote in chess.rs): a White pawn on b7 promotes by
capturing the Black bishop on c8. -/
def c1_fen : String := "1nbqkbnr/rP1ppppp/p1p5/8/8/8/1PPPPPPP/RNBQKBNR w KQk - 1 5"

/-- The board parsed from `c1_fen`. -/
def c1_board : Board := (Board.from_fen c1_fen).getD Board.emptyBoard

/-- The movement `b7c8q` (b7 is square 49, c8 is square 58). -/
def c1_move : Movement := ⟨⟨49⟩, ⟨58⟩, some Piece.Queen⟩

/-- The board after applying `b7c8q` to `c1_board`. -/
def c1_after : Board := (c1_board.make_move_mut c1_move).getD Board.emptyBoard

/-- A searcher state whose transposition table already holds an entry of
depth 5 for position 0 (used to exercise the probe). -/
def c5_state : Searcher Nat Nat :=
  { tp := [(0, ⟨7, none, 5⟩)], nodes := 0, pruned := 0, cached := 0 }

/-! Theorems. -/

/-- C1: the spec says an opponent piece on the destination square is
removed from its piece bitboard and from the opponent's colour bitboard;
on the repository's own promotion-capture test position, make_move_mut
succeeds but leaves the captured Black bishop's bit on c8 set in both the
Bishop bitboard and the Black colour bitboard (so the colour bitboards are
no longer disjoint). -/
theorem C1_capture_not_removed :
    Movement.from_notation "b7c8q" = some c1_move ∧
    (Board.from_fen c1_fen).isSome = true ∧
    (c1_board.make_move_mut c1_move).isSome = true ∧
    (c1_after.piecesBB Piece.Bishop).get ⟨58⟩ = true ∧
    (c1_after.color_combinedBB Color.Black).get ⟨58⟩ = true ∧
    (c1_after.color_combinedBB Color.White).get ⟨58⟩ = true := by
  decide

/-- C2: `get_score(board, n)` returns `MATE · polarize(other(side_to_move))`
when n = 0 and the side to move is in check, 0 when n = 0 and it is not in
check, and the static material-plus-table score otherwise — for any check
predicate standing in for the out-of-source `Board::in_check`. -/
theorem C2_get_score_cases (in_check : Board → Bool) (board : Board) (n : Nat) :
    (n = 0 → in_check board = true →
      get_score in_check board n = MATE * board.side_to_move.other.polarize) ∧
    (n = 0 → in_check board = false → get_score in_check board n = 0) ∧
    (0 < n → get_score in_check board n = get_score_ongoing board) := by
  refine ⟨fun h1 h2 => ?_, fun h1 h2 => ?_, fun h1 => ?_⟩
  · simp [get_score, h1, h2]
  · simp [get_score, h1, h2]
  · simp [get_score, Nat.pos_iff_ne_zero.mp h1, h1]

/-- Witness for C2 at a concrete input (checkmate case on the empty board
with an always-true check predicate). -/
theorem C2_witness :
    get_score (fun _ => true) Board.emptyBoard 0 =
      MATE * Board.emptyBoard.side_to_move.other.polarize :=
  (C2_get_score_cases (fun _ => true) Board.emptyBoard 0).1 rfl rfl

/-- C6 counterexample: on a1 the rook occupancy mask has 12 bits, so the
spec's formula `64 − popcount + 1` gives 53, but the generated right shift
(`leading_zeros(n_questions) + 1`) is 52 — the claimed identity fails on
every square. -/
theorem C6_counterexample :
    ¬ (magic_right_shift ⟨0⟩ Piece.Rook =
        64 - (get_occupancy_mask ⟨0⟩ Piece.Rook).count_ones + 1) := by
  decide

/-- C6 as amended: for every square and both sliders, the hash right shift
equals `64 − popcount(occupancy_mask)` (without the spurious `+ 1`), and
this is exactly `leading_zeros(n_questions) + 1` for the
`2^popcount(occupancy_mask)` enumerated blocker patterns. -/
theorem C6_right_shift (v : Fin 64) :
    (magic_right_shift ⟨v.val⟩ Piece.Rook =
        64 - (get_occupancy_mask ⟨v.val⟩ Piece.Rook).count_ones ∧
      magic_right_shift ⟨v.val⟩ Piece.Bishop =
        64 - (get_occupancy_mask ⟨v.val⟩ Piece.Bishop).count_ones) ∧
    (magic_right_shift ⟨v.val⟩ Piece.Rook =
        u64_leading_zeros (n_questions ⟨v.val⟩ Piece.Rook) + 1 ∧
      magic_right_shift ⟨v.val⟩ Piece.Bishop =
        u64_leading_zeros (n_questions ⟨v.val⟩ Piece.Bishop) + 1) := by
  revert v
  decide

/-- C7 counterexample: with the rook-on-a1 occupancy mask, the candidate
magic 1 reaches the collision test (its full product has 12 set bits, so
the code's filter passes it) although the product's top byte has no set
bit at all — the filter the code applies is on the whole product, not on
the top byte. -/
theorem C7_counterexample :
    (⟨1⟩ : BitBoard) ∈ tested_candidates (get_occupancy_mask ⟨0⟩ Piece.Rook) [] []
        (magic_right_shift ⟨0⟩ Piece.Rook) [⟨1⟩] ∧
    top_byte_ones ((get_occupancy_mask ⟨0⟩ Piece.Rook).mul ⟨1⟩) < 6 := by
  decide

/-- C7 as amended: every candidate that reaches the collision test has at
least 6 set bits in the entire 64-bit wrapping product of the occupancy
mask and the candidate; candidates failing this are skipped before any
collision test. -/
theorem C7_quality_filter (mask : BitBoard) (questions answers : List BitBoard)
    (shift : Nat) (stream : List BitBoard) (cand : BitBoard)
    (h : cand ∈ tested_candidates mask questions answers shift stream) :
    6 ≤ (mask.mul cand).count_ones := by
  induction stream with
  | nil => simp [tested_candidates] at h
  | cons c rest ih =>
    by_cases hq : (mask.mul c).count_ones < 6
    · rw [tested_candidates, if_pos hq] at h
      exact ih h
    · rw [tested_candidates, if_neg hq] at h
      by_cases hc : collision_test questions answers shift c
      · rw [if_pos hc] at h
        simp at h
        subst h
        omega
      · rw [if_neg hc] at h
        rcases List.mem_cons.mp h with h | h
        · subst h; omega
        · exact ih h

/-- Witness for C7 at a concrete input: candidate 1 with the rook-a1 mask
is tested, and its product indeed has at least 6 set bits. -/
theorem C7_witness :
    6 ≤ ((get_occupancy_mask ⟨0⟩ Piece.Rook).mul ⟨1⟩).count_ones :=
  C7_quality_filter (get_occupancy_mask ⟨0⟩ Piece.Rook) [] []
    (magic_right_shift ⟨0⟩ Piece.Rook) [⟨1⟩] ⟨1⟩ (by decide)

/-- C9: the parser's `debug` branch recognises `true`/`false`, not the
UCI-standard `on`/`off` that the spec's command table lists: `debug on`
and `debug off` produce no message, while `debug true` and `debug false`
produce the toggle messages. -/
theorem C9_debug_arguments :
    parse "debug on" = none ∧
    parse "debug off" = none ∧
    parse "debug true" = some (EngineMessage.Debug true) ∧
    parse "debug false" = some (EngineMessage.Debug false) ∧
    parse "debug x" = none := by
  decide

/-- C8 counterexample: `Movement::from_notation` does not reject a
movement whose origin and destination coincide — `e2e2` parses to a
movement (square 12 to square 12) rather than to none. -/
theorem C8_counterexample : Movement.from_notation "e2e2" ≠ none := by
  decide

/-- C8 as amended: parsing `e2e2` yields the degenerate movement, but
applying any movement with `from_square = to_square` through make_move_mut
fails (returns None) on every board whose piece bitboards are covered by
the two colour bitboards: an occupied origin equals the destination and is
rejected as an own-colour destination, and an empty origin fails the piece
lookup. -/
theorem C8_from_to_equal (b : Board) (m : Movement)
    (hcov : ∀ bb ∈ b.pieces,
      bb.b &&& ((b.color_combinedBB Color.White).b ||| (b.color_combinedBB Color.Black).b) = bb.b)
    (heq : m.from_square = m.to_square) :
    Movement.from_notation "e2e2" = some ⟨⟨12⟩, ⟨12⟩, none⟩ ∧ b.make_move_mut m = none := by
  refine ⟨by decide, ?_⟩
  have hto : m.to_square = m.from_square := heq.symm
  by_cases hw : (b.color_combinedBB Color.White).get m.from_square
  · simp [Board.make_move_mut, hw, hto]
  · by_cases hb : (b.color_combinedBB Color.Black).get m.from_square
    · simp [Board.make_move_mut, hw, hb, hto]
    · have hfind : b.pieces.findIdx? (fun bb => bb.get m.from_square) = none := by
        rw [List.findIdx?_eq_none_iff]
        intro bb hbb
        simp only [BitBoard.get] at *
        by_contra hget
        have h1 : bb.b.testBit m.from_square.val = true := by
          revert hget
          cases bb.b.testBit m.from_square.val <;> simp
        have h2 : (bb.b &&& ((b.color_combinedBB Color.White).b |||
            (b.color_combinedBB Color.Black).b)).testBit m.from_square.val = true := by
          rw [hcov bb hbb]; exact h1
        rw [Nat.testBit_and, Nat.testBit_or] at h2
        have hw' : (b.color_combinedBB Color.White).b.testBit m.from_square.val = false := by
          revert hw; cases (b.color_combinedBB Color.White).b.testBit m.from_square.val <;> simp
        have hb' : (b.color_combinedBB Color.Black).b.testBit m.from_square.val = false := by
          revert hb; cases (b.color_combinedBB Color.Black).b.testBit m.from_square.val <;> simp
        rw [hw', hb'] at h2
        simp at h2
      simp [Board.make_move_mut, hw, hb, hto, hfind]

/-- Witness for C8 at a concrete input: the start position satisfies the
coverage invariant and `e2e2` fails to apply. -/
theorem C8_witness :
    Movement.from_notation "e2e2" = some ⟨⟨12⟩, ⟨12⟩, none⟩ ∧
    Board.from_start_pos.make_move_mut ⟨⟨12⟩, ⟨12⟩, none⟩ = none :=
  C8_from_to_equal Board.from_start_pos ⟨⟨12⟩, ⟨12⟩, none⟩ (by decide) rfl

/-- C10: make_move_mut fails exactly on a destination held by the mover's
colour, an origin square held by no piece bitboard, or an invalid
promotion target — and every failure leaves the board untouched (all
`return None` statements precede the first mutation): make_move hands back
the original board. -/
theorem C10_failure_atomic (b : Board) (m : Movement) :
    (b.make_move_mut m = none ↔
      ((b.color_combinedBB
          (if (b.color_combinedBB Color.White).get m.from_square
            then Color.White else Color.Black)).get m.to_square = true ∨
        b.pieces.findIdx? (fun bb => bb.get m.from_square) = none ∨
        (∃ pp, m.promote = some pp ∧ pp.can_promote_to = false))) ∧
    (b.make_move_mut m = none → b.make_move m = b) := by
  constructor
  · by_cases h1 : (b.color_combinedBB
        (if (b.color_combinedBB Color.White).get m.from_square
          then Color.White else Color.Black)).get m.to_square
    · simp [Board.make_move_mut, h1]
    · cases h2 : b.pieces.findIdx? (fun bb => bb.get m.from_square) with
      | none => simp [Board.make_move_mut, h1, h2]
      | some idx =>
        cases hp : m.promote with
        | none => simp [Board.make_move_mut, h1, h2, hp]
        | some pp =>
          by_cases hcan : pp.can_promote_to
          · simp [Board.make_move_mut, h1, h2, hp, hcan]
          · simp [Board.make_move_mut, h1, h2, hp, hcan]
  · intro h
    simp [Board.make_move, h]

/-- Witness for C10 at a concrete input: applying `e2e2` to the start
position fails, and make_move returns the board unchanged. -/
theorem C10_witness :
    Board.from_start_pos.make_move ⟨⟨12⟩, ⟨12⟩, none⟩ = Board.from_start_pos :=
  (C10_failure_atomic Board.from_start_pos ⟨⟨12⟩, ⟨12⟩, none⟩).2 (by decide)

/-- C3 counterexample: on the concrete game `gC3`, the root alpha-beta
call with the full (i16::MIN, i16::MAX) window — `search_depth` — returns
0, while full minimax to the same depth returns 5: the transposition table
stores the value of a pruned subtree and later returns it as exact. -/
theorem C3_counterexample :
    (search_depth gC3 (Searcher.new Nat Nat) 0 3).1.eval = 0 ∧
    minimax gC3 3 0 0 = 5 ∧
    (search_depth gC3 (Searcher.new Nat Nat) 0 3).1.eval ≠ minimax gC3 3 0 0 := by
  refine ⟨by decide, by decide, by decide⟩

/-- The White alpha-beta loop never changes the depth field of the
running SearchResult. -/
theorem abLoopW_depth (child : M → Int → Searcher B M → SearchResult M × Searcher B M)
    (beta : Int) :
    ∀ (ms : List M) (sr : SearchResult M) (alpha : Int) (st : Searcher B M),
      (abLoopW child beta ms sr alpha st).1.depth = sr.depth := by
  intro ms
  induction ms with
  | nil => intro sr alpha st; rfl
  | cons mv rest ih =>
    intro sr alpha st
    rw [abLoopW]
    by_cases hgt : (child mv alpha st).1.eval > sr.eval <;>
      by_cases hba : beta ≤ max alpha (child mv alpha st).1.eval <;>
        simp [hgt, hba, ih]

/-- The Black alpha-beta loop never changes the depth field of the
running SearchResult. -/
theorem abLoopB_depth (child : M → Int → Searcher B M → SearchResult M × Searcher B M)
    (alpha : Int) :
    ∀ (ms : List M) (sr : SearchResult M) (beta : Int) (st : Searcher B M),
      (abLoopB child alpha ms sr beta st).1.depth = sr.depth := by
  intro ms
  induction ms with
  | nil => intro sr beta st; rfl
  | cons mv rest ih =>
    intro sr beta st
    rw [abLoopB]
    by_cases hlt : (child mv beta st).1.eval < sr.eval <;>
      by_cases hba : min beta (child mv beta st).1.eval ≤ alpha <;>
        simp [hlt, hba, ih]

/-- The transposition lookup right after an overwriting insert returns the
inserted result. -/
theorem tpGet_insert_self [DecidableEq B] (tp : List (B × SearchResult M)) (board : B)
    (sr : SearchResult M) : tpGet (tpInsert tp board sr) board = some sr := by
  simp [tpGet, tpInsert, List.find?]

/-- The mate-distance arithmetic of the leaf evaluation: when the
evaluator reports a score of absolute value MATE, the leaf shifts it by
`ply · polarize(side_to_move)`, and for the sign the evaluator actually
produces (MATE for the opponent of the side to move) the shifted score's
absolute value is `MATE − ply` — mates reached in fewer plies score
better. -/
theorem leafEval_mate (g : Game B M) (board : B) (depth n : Nat) :
    ((g.score board n).natAbs = 10000 →
      leafEval g board depth n = g.score board n + (depth : Int) * (g.stm board).polarize) ∧
    (g.score board n = MATE * (g.stm board).other.polarize → (depth : Int) ≤ MATE →
      (leafEval g board depth n).natAbs = (MATE - (depth : Int)).natAbs) := by
  constructor
  · intro h
    simp [leafEval, MATE, h]
  · intro h hd
    have habs : (g.score board n).natAbs = 10000 := by
      cases hstm : g.stm board <;> rw [hstm] at h <;>
        simp [Color.other, Color.polarize, MATE] at h <;> simp [h]
    simp only [leafEval, MATE] at *
    rw [if_pos (by simpa using habs)]
    cases hstm : g.stm board <;> rw [hstm] at h <;>
      simp only [Color.other, Color.polarize] at h ⊢ <;> rw [h] <;> omega

/-- C4: whenever the transposition probe misses and the leaf condition
holds (ply at or past max_depth, or no legal moves), alphabeta returns a
SearchResult of depth 0 with no move whose eval is the evaluator's score,
shifted by `ply · polarize(side_to_move)` when its absolute value is MATE
— and for the sign the evaluator produces at a mate the shifted score has
absolute value `MATE − ply`, toward zero. -/
theorem C4_leaf_result (g : Game B M) [DecidableEq B] (board : B) (max_depth depth : Nat)
    (alpha beta : Int) (st : Searcher B M)
    (hprobe : tpProbe st.tp board (max_depth - depth) = none)
    (hleaf : max_depth ≤ depth ∨ (g.legal_moves board).length = 0) :
    (alphabeta g board max_depth depth alpha beta st).1.depth = 0 ∧
    (alphabeta g board max_depth depth alpha beta st).1.mv = none ∧
    (alphabeta g board max_depth depth alpha beta st).1.eval =
      leafEval g board depth (g.legal_moves board).length ∧
    ((g.score board (g.legal_moves board).length).natAbs = 10000 →
      (alphabeta g board max_depth depth alpha beta st).1.eval =
        g.score board (g.legal_moves board).length + (depth : Int) * (g.stm board).polarize) ∧
    (g.score board (g.legal_moves board).length = MATE * (g.stm board).other.polarize →
      (depth : Int) ≤ MATE →
      (alphabeta g board max_depth depth alpha beta st).1.eval.natAbs =
        (MATE - (depth : Int)).natAbs) := by
  have hres : (alphabeta g board max_depth depth alpha beta st).1 =
      ⟨leafEval g board depth (g.legal_moves board).length, none, 0⟩ := by
    cases h0 : max_depth - depth with
    | zero =>
      rw [alphabeta, h0]
      rw [h0] at hprobe
      simp [alphabeta_go, hprobe, leafStep]
    | succ d =>
      have hm : (g.legal_moves board).length = 0 := by
        rcases hleaf with h | h
        · omega
        · exact h
      rw [alphabeta, h0]
      rw [h0] at hprobe
      simp [alphabeta_go, hprobe, hm, leafStep]
  rw [hres]
  refine ⟨rfl, rfl, rfl, (leafEval_mate g board depth _).1, (leafEval_mate g board depth _).2⟩

/-- Witness for C4 at a concrete input: the one-position mate game at
max_depth = ply = 2 with an empty table. -/
theorem C4_witness :
    (alphabeta gMate 0 2 2 0 0 (Searcher.new Nat Nat)).1.depth = 0 ∧
    (alphabeta gMate 0 2 2 0 0 (Searcher.new Nat Nat)).1.mv = none ∧
    (alphabeta gMate 0 2 2 0 0 (Searcher.new Nat Nat)).1.eval =
      leafEval gMate 0 2 (gMate.legal_moves 0).length ∧
    ((gMate.score 0 (gMate.legal_moves 0).length).natAbs = 10000 →
      (alphabeta gMate 0 2 2 0 0 (Searcher.new Nat Nat)).1.eval =
        gMate.score 0 (gMate.legal_moves 0).length + (2 : Int) * (gMate.stm 0).polarize) ∧
    (gMate.score 0 (gMate.legal_moves 0).length = MATE * (gMate.stm 0).other.polarize →
      (2 : Int) ≤ MATE →
      (alphabeta gMate 0 2 2 0 0 (Searcher.new Nat Nat)).1.eval.natAbs =
        (MATE - (2 : Int)).natAbs) :=
  C4_leaf_result gMate 0 2 2 0 0 (Searcher.new Nat Nat) (by decide) (Or.inl (by decide))

/-- C5: if the table holds an entry for the board with depth at least
`max_depth − ply`, alphabeta returns that entry unchanged and counts a
cache hit; and on every non-leaf invocation the returned result is stored
into the table with depth exactly `max_depth − ply`. -/
theorem C5_transposition (g : Game B M) [DecidableEq B] (board : B) (max_depth depth : Nat)
    (alpha beta : Int) (st : Searcher B M) :
    (∀ e, tpGet st.tp board = some e → max_depth - depth ≤ e.depth →
      (alphabeta g board max_depth depth alpha beta st).1 = e ∧
      (alphabeta g board max_depth depth alpha beta st).2.cached = st.cached + 1) ∧
    (tpProbe st.tp board (max_depth - depth) = none → depth < max_depth →
      (g.legal_moves board).length ≠ 0 →
      (alphabeta g board max_depth depth alpha beta st).1.depth = max_depth - depth ∧
      tpGet (alphabeta g board max_depth depth alpha beta st).2.tp board =
        some (alphabeta g board max_depth depth alpha beta st).1) := by
  constructor
  · intro e he hd
    have hhit : tpProbe st.tp board (max_depth - depth) = some e := by
      rw [tpProbe, he]
      simp [hd]
    cases h0 : max_depth - depth with
    | zero =>
      rw [h0] at hhit
      rw [alphabeta, h0]
      simp [alphabeta_go, hhit]
    | succ d =>
      rw [h0] at hhit
      rw [alphabeta, h0]
      simp [alphabeta_go, hhit]
  · intro hprobe hdepth hmoves
    obtain ⟨d, hd⟩ : ∃ d, max_depth - depth = d + 1 := ⟨max_depth - depth - 1, by omega⟩
    rw [alphabeta, hd]
    rw [hd] at hprobe
    simp only [alphabeta_go, hprobe]
    rw [if_neg hmoves]
    by_cases hstm : g.stm board = Color.White
    · rw [if_pos hstm]
      exact ⟨abLoopW_depth _ _ _ _ _ _, tpGet_insert_self _ _ _⟩
    · rw [if_neg hstm]
      exact ⟨abLoopB_depth _ _ _ _ _ _, tpGet_insert_self _ _ _⟩

/-- Witness for C5 at a concrete input: a table holding a depth-5 entry
for position 0 of the small game is returned unchanged by a depth-3 root
search, with the cache counter incremented. -/
theorem C5_witness :
    (alphabeta gC3 0 3 0 (-32768) 32767 c5_state).1 = ⟨7, none, 5⟩ ∧
    (alphabeta gC3 0 3 0 (-32768) 32767 c5_state).2.cached = c5_state.cached + 1 :=
  (C5_transposition gC3 0 3 0 (-32768) 32767 c5_state).1 ⟨7, none, 5⟩ (by decide) (by decide)

/-! Order lemmas about max/min folds, used by the alpha-beta/minimax
equivalence. -/

theorem foldl_max_absorb (l : List Int) : ∀ a b,
    List.foldl max (max a b) l = max a (List.foldl max b l) := by
  induction l with
  | nil => intro a b; rfl
  | cons c t ih =>
    intro a b
    simp only [List.foldl, max_assoc, ih]

theorem le_foldl_max (l : List Int) : ∀ a, a ≤ List.foldl max a l := by
  induction l with
  | nil => intro a; exact le_refl a
  | cons c t ih =>
    intro a
    exact le_trans (le_max_left a c) (ih (max a c))

theorem mem_le_foldl_max (l : List Int) : ∀ x ∈ l, ∀ a, x ≤ List.foldl max a l := by
  induction l with
  | nil => intro x hx; cases hx
  | cons c t ih =>
    intro x hx a
    rcases List.mem_cons.mp hx with h | h
    · subst h
      exact le_trans (le_max_right a x) (le_foldl_max t (max a x))
    · exact ih x h (max a c)

theorem foldl_max_self_or_mem (l : List Int) : ∀ a,
    List.foldl max a l = a ∨ List.foldl max a l ∈ l := by
  induction l with
  | nil => intro a; exact Or.inl rfl
  | cons c t ih =>
    intro a
    rcases ih (max a c) with h | h
    · rcases max_choice a c with hc | hc
      · exact Or.inl (by rw [List.foldl, h, hc])
      · exact Or.inr (by rw [List.foldl, h, hc]; exact List.mem_cons_self c t)
    · exact Or.inr (List.mem_cons_of_mem c h)

theorem maxOf_mem {l : List Int} (h : l ≠ []) : maxOf l ∈ l := by
  cases l with
  | nil => exact absurd rfl h
  | cons x xs =>
    rcases foldl_max_self_or_mem xs x with h1 | h1
    · rw [maxOf, h1]; exact List.mem_cons_self x xs
    · exact List.mem_cons_of_mem x (by rw [maxOf]; exact h1)

theorem le_maxOf {l : List Int} {x : Int} (h : x ∈ l) : x ≤ maxOf l := by
  cases l with
  | nil => cases h
  | cons y ys =>
    rcases List.mem_cons.mp h with h1 | h1
    · subst h1; exact le_foldl_max ys x
    · exact mem_le_foldl_max ys x h1 y

theorem maxOf_perm {l₁ l₂ : List Int} (h : l₁.Perm l₂) : maxOf l₁ = maxOf l₂ := by
  by_cases h1 : l₁ = []
  · subst h1
    rw [← h.nil_eq]
  · have h2 : l₂ ≠ [] := by
      intro he
      subst he
      exact h1 (List.Perm.eq_nil h)
    exact le_antisymm (le_maxOf (h.mem_iff.mp (maxOf_mem h1)))
      (le_maxOf (h.mem_iff.mpr (maxOf_mem h2)))

theorem foldl_max_eq_max_maxOf {l : List Int} (h : l ≠ []) (s : Int) :
    List.foldl max s l = max s (maxOf l) := by
  cases l with
  | nil => exact absurd rfl h
  | cons x xs =>
    rw [maxOf, List.foldl_cons, foldl_max_absorb xs s x]

theorem foldl_min_absorb (l : List Int) : ∀ a b,
    List.foldl min (min a b) l = min a (List.foldl min b l) := by
  induction l with
  | nil => intro a b; rfl
  | cons c t ih =>
    intro a b
    simp only [List.foldl, min_assoc, ih]

theorem foldl_min_le (l : List Int) : ∀ a, List.foldl min a l ≤ a := by
  induction l with
  | nil => intro a; exact le_refl a
  | cons c t ih =>
    intro a
    exact le_trans (ih (min a c)) (min_le_left a c)

theorem foldl_min_le_mem (l : List Int) : ∀ x ∈ l, ∀ a, List.foldl min a l ≤ x := by
  induction l with
  | nil => intro x hx; cases hx
  | cons c t ih =>
    intro x hx a
    rcases List.mem_cons.mp hx with h | h
    · subst h
      exact le_trans (foldl_min_le t (min a x)) (min_le_right a x)
    · exact ih x h (min a c)

theorem foldl_min_self_or_mem (l : List Int) : ∀ a,
    List.foldl min a l = a ∨ List.foldl min a l ∈ l := by
  induction l with
  | nil => intro a; exact Or.inl rfl
  | cons c t ih =>
    intro a
    rcases ih (min a c) with h | h
    · rcases min_choice a c with hc | hc
      · exact Or.inl (by rw [List.foldl, h, hc])
      · exact Or.inr (by rw [List.foldl, h, hc]; exact List.mem_cons_self c t)
    · exact Or.inr (List.mem_cons_of_mem c h)

theorem minOf_mem {l : List Int} (h : l ≠ []) : minOf l ∈ l := by
  cases l with
  | nil => exact absurd rfl h
  | cons x xs =>
    rcases foldl_min_self_or_mem xs x with h1 | h1
    · rw [minOf, h1]; exact List.mem_cons_self x xs
    · exact List.mem_cons_of_mem x (by rw [minOf]; exact h1)

theorem minOf_le {l : List Int} {x : Int} (h : x ∈ l) : minOf l ≤ x := by
  cases l with
  | nil => cases h
  | cons y ys =>
    rcases List.mem_cons.mp h with h1 | h1
    · subst h1; exact foldl_min_le ys x
    · exact foldl_min_le_mem ys x h1 y

theorem minOf_perm {l₁ l₂ : List Int} (h : l₁.Perm l₂) : minOf l₁ = minOf l₂ := by
  by_cases h1 : l₁ = []
  · subst h1
    rw [← h.nil_eq]
  · have h2 : l₂ ≠ [] := by
      intro he
      subst he
      exact h1 (List.Perm.eq_nil h)
    exact le_antisymm (minOf_le (h.mem_iff.mpr (minOf_mem h2)))
      (minOf_le (h.mem_iff.mp (minOf_mem h1)))

theorem foldl_min_eq_min_minOf {l : List Int} (h : l ≠ []) (s : Int) :
    List.foldl min s l = min s (minOf l) := by
  cases l with
  | nil => exact absurd rfl h
  | cons x xs =>
    rw [minOf, List.foldl_cons, foldl_min_absorb xs s x]

/-- The move ordering is a permutation of the move list. -/
theorem sort_by_promise_perm (g : Game B M) (board : B) (moves : List M) :
    (sort_by_promise g board moves).Perm moves := by
  rw [sort_by_promise]
  split
  · exact (List.reverse_perm _).trans (List.perm_insertionSort _ _)
  · exact List.perm_insertionSort _ _

/-- If every leaf evaluation lies in [−32766, 32766], then so does every
minimax value. -/
theorem minimax_bound (g : Game B M)
    (hbound : ∀ b depth n, -32766 ≤ leafEval g b depth n ∧ leafEval g b depth n ≤ 32766) :
    ∀ (d : Nat) (b : B) (depth : Nat),
      -32766 ≤ minimax g d b depth ∧ minimax g d b depth ≤ 32766 := by
  intro d
  induction d with
  | zero => intro b depth; exact hbound b depth _
  | succ d ih =>
    intro b depth
    simp only [minimax]
    by_cases hm : (g.legal_moves b).length = 0
    · rw [if_pos hm]
      exact hbound b depth _
    · rw [if_neg hm]
      have hne : (g.legal_moves b).map
          (fun mv => minimax g d (g.make_move b mv) (depth + 1)) ≠ [] := by
        intro he
        apply hm
        simpa using congrArg List.length he
      by_cases hstm : g.stm b = Color.White
      · rw [if_pos hstm]
        have hmem := maxOf_mem hne
        rcases List.mem_map.mp hmem with ⟨mv, _, heq⟩
        rw [← heq]
        exact ih _ _
      · rw [if_neg hstm]
        have hmem := minOf_mem hne
        rcases List.mem_map.mp hmem with ⟨mv, _, heq⟩
        rw [← heq]
        exact ih _ _

/-- Exhaustive elimination of the fail-soft bracketing: inside a window
the result is exact, outside it is bracketed on the corresponding side. -/
theorem threeway_elim {r v alpha beta : Int} (h : threeway r v alpha beta)
    (_hab : alpha < beta) :
    (alpha < v ∧ v < beta ∧ r = v) ∨ (v ≤ alpha ∧ v ≤ r ∧ r ≤ alpha) ∨
    (beta ≤ v ∧ beta ≤ r ∧ r ≤ v) := by
  obtain ⟨ha, hb, hc⟩ := h
  rcases le_or_lt v alpha with h1 | h1
  · obtain ⟨h2, h3⟩ := hb h1
    exact Or.inr (Or.inl ⟨h1, h2, h3⟩)
  · rcases lt_or_le v beta with h2 | h2
    · exact Or.inl ⟨h1, h2, ha h1 h2⟩
    · obtain ⟨h3, h4⟩ := hc h2
      exact Or.inr (Or.inr ⟨h2, h3, h4⟩)

/-- The sr update of the White loop computes the running maximum. -/
theorem ite_update_evalW (sr : SearchResult M) (mv : M) (e : Int) :
    (if e > sr.eval then ({ sr with eval := e, mv := some mv } : SearchResult M)
      else sr).eval = max sr.eval e := by
  split <;> rename_i h <;> simp <;> omega

/-- The sr update of the Black loop computes the running minimum. -/
theorem ite_update_evalB (sr : SearchResult M) (mv : M) (e : Int) :
    (if e < sr.eval then ({ sr with eval := e, mv := some mv } : SearchResult M)
      else sr).eval = min sr.eval e := by
  split <;> rename_i h <;> simp <;> omega

/-- The fail-soft bracketing of the White alpha-beta loop: against the
running maximum of the initial value and the children's true values. -/
theorem pureLoopW_spec (child : M → Int → SearchResult M) (f : M → Int) (beta : Int)
    (hbnd : ∀ m, -32766 ≤ f m ∧ f m ≤ 32766)
    (hchild : ∀ m, ∀ a, a < beta → a < 32767 → threeway ((child m a).eval) (f m) a beta) :
    ∀ (ms : List M) (sr : SearchResult M) (alpha : Int),
      alpha < beta → alpha < 32767 →
      threeway ((pureLoopW child beta ms sr alpha).eval)
        (List.foldl max sr.eval (ms.map f)) alpha beta := by
  intro ms
  induction ms with
  | nil =>
    intro sr alpha h1 h2
    exact ⟨fun _ _ => rfl, fun h => ⟨le_refl _, h⟩, fun h => ⟨h, le_refl _⟩⟩
  | cons mv rest ih =>
    intro sr alpha h1 h2
    obtain ⟨hf1, hf2⟩ := hbnd mv
    have hElimC := threeway_elim (hchild mv alpha h1 h2) h1
    have hW : List.foldl max sr.eval ((mv :: rest).map f) =
        max (f mv) (List.foldl max sr.eval (rest.map f)) := by
      rw [List.map_cons, List.foldl_cons, max_comm sr.eval (f mv), foldl_max_absorb]
    have hsT : sr.eval ≤ List.foldl max sr.eval (rest.map f) := le_foldl_max _ _
    simp only [pureLoopW]
    rw [hW]
    by_cases hbr : beta ≤ max alpha ((child mv alpha).eval)
    · rw [if_pos hbr, ite_update_evalW sr mv ((child mv alpha).eval)]
      rcases hElimC with ⟨c1, c2, c3⟩ | ⟨c1, c2, c3⟩ | ⟨c1, c2, c3⟩ <;>
        exact ⟨fun p q => by omega, fun p => ⟨by omega, by omega⟩,
          fun p => ⟨by omega, by omega⟩⟩
    · rw [if_neg hbr]
      have hbr' : max alpha ((child mv alpha).eval) < beta := by omega
      have hrc32 : (child mv alpha).eval < 32767 := by
        rcases hElimC with ⟨cx, cy, cz⟩ | ⟨cx, cy, cz⟩ | ⟨cx, cy, cz⟩ <;> omega
      have hIH := ih
        (if (child mv alpha).eval > sr.eval
          then { sr with eval := (child mv alpha).eval, mv := some mv } else sr)
        (max alpha ((child mv alpha).eval)) hbr' (by omega)
      rw [ite_update_evalW sr mv ((child mv alpha).eval)] at hIH
      have hW' : List.foldl max (max sr.eval ((child mv alpha).eval)) (rest.map f) =
          max ((child mv alpha).eval) (List.foldl max sr.eval (rest.map f)) := by
        rw [max_comm sr.eval _, foldl_max_absorb]
      rw [hW'] at hIH
      have hElimI := threeway_elim hIH hbr'
      rcases hElimC with ⟨c1, c2, c3⟩ | ⟨c1, c2, c3⟩ | ⟨c1, c2, c3⟩ <;>
        rcases hElimI with ⟨i1, i2, i3⟩ | ⟨i1, i2, i3⟩ | ⟨i1, i2, i3⟩ <;>
          exact ⟨fun p q => by omega, fun p => ⟨by omega, by omega⟩,
            fun p => ⟨by omega, by omega⟩⟩

/-- The fail-soft bracketing of the Black alpha-beta loop: against the
running minimum of the initial value and the children's true values. -/
theorem pureLoopB_spec (child : M → Int → SearchResult M) (f : M → Int) (alpha : Int)
    (hbnd : ∀ m, -32766 ≤ f m ∧ f m ≤ 32766)
    (hchild : ∀ m, ∀ b, alpha < b → -32767 < b → threeway ((child m b).eval) (f m) alpha b) :
    ∀ (ms : List M) (sr : SearchResult M) (beta : Int),
      alpha < beta → -32767 < beta →
      threeway ((pureLoopB child alpha ms sr beta).eval)
        (List.foldl min sr.eval (ms.map f)) alpha beta := by
  intro ms
  induction ms with
  | nil =>
    intro sr beta h1 h2
    exact ⟨fun _ _ => rfl, fun h => ⟨le_refl _, h⟩, fun h => ⟨h, le_refl _⟩⟩
  | cons mv rest ih =>
    intro sr beta h1 h2
    obtain ⟨hf1, hf2⟩ := hbnd mv
    have hElimC := threeway_elim (hchild mv beta h1 h2) h1
    have hW : List.foldl min sr.eval ((mv :: rest).map f) =
        min (f mv) (List.foldl min sr.eval (rest.map f)) := by
      rw [List.map_cons, List.foldl_cons, min_comm sr.eval (f mv), foldl_min_absorb]
    have hsT : List.foldl min sr.eval (rest.map f) ≤ sr.eval := foldl_min_le _ _
    simp only [pureLoopB]
    rw [hW]
    by_cases hbr : min beta ((child mv beta).eval) ≤ alpha
    · rw [if_pos hbr, ite_update_evalB sr mv ((child mv beta).eval)]
      rcases hElimC with ⟨c1, c2, c3⟩ | ⟨c1, c2, c3⟩ | ⟨c1, c2, c3⟩ <;>
        exact ⟨fun p q => by omega, fun p => ⟨by omega, by omega⟩,
          fun p => ⟨by omega, by omega⟩⟩
    · rw [if_neg hbr]
      have hbr' : alpha < min beta ((child mv beta).eval) := by omega
      have hrcg : -32767 < (child mv beta).eval := by
        rcases hElimC with ⟨cx, cy, cz⟩ | ⟨cx, cy, cz⟩ | ⟨cx, cy, cz⟩ <;> omega
      have hIH := ih
        (if (child mv beta).eval < sr.eval
          then { sr with eval := (child mv beta).eval, mv := some mv } else sr)
        (min beta ((child mv beta).eval)) hbr' (by omega)
      rw [ite_update_evalB sr mv ((child mv beta).eval)] at hIH
      have hW' : List.foldl min (min sr.eval ((child mv beta).eval)) (rest.map f) =
          min ((child mv beta).eval) (List.foldl min sr.eval (rest.map f)) := by
        rw [min_comm sr.eval _, foldl_min_absorb]
      rw [hW'] at hIH
      have hElimI := threeway_elim hIH hbr'
      rcases hElimC with ⟨c1, c2, c3⟩ | ⟨c1, c2, c3⟩ | ⟨c1, c2, c3⟩ <;>
        rcases hElimI with ⟨i1, i2, i3⟩ | ⟨i1, i2, i3⟩ | ⟨i1, i2, i3⟩ <;>
          exact ⟨fun p q => by omega, fun p => ⟨by omega, by omega⟩,
            fun p => ⟨by omega, by omega⟩⟩

/-- The table-free alpha-beta of search.rs brackets full minimax at every
window, for any evaluator whose leaf values stay strictly inside the
i16 sentinels. -/
theorem abPure_threeway (g : Game B M)
    (hbound : ∀ b depth n, -32766 ≤ leafEval g b depth n ∧ leafEval g b depth n ≤ 32766) :
    ∀ (d : Nat) (b : B) (depth : Nat) (alpha beta : Int),
      alpha < beta → alpha < 32767 → -32767 < beta →
      threeway ((abPure g d b depth alpha beta).eval) (minimax g d b depth) alpha beta := by
  intro d
  induction d with
  | zero =>
    intro b depth alpha beta h1 h2 h3
    simp only [abPure, minimax]
    exact ⟨fun _ _ => rfl, fun h => ⟨le_refl _, h⟩, fun h => ⟨h, le_refl _⟩⟩
  | succ d ih =>
    intro b depth alpha beta h1 h2 h3
    simp only [abPure, minimax]
    by_cases hm : (g.legal_moves b).length = 0
    · rw [if_pos hm, if_pos hm]
      exact ⟨fun _ _ => rfl, fun h => ⟨le_refl _, h⟩, fun h => ⟨h, le_refl _⟩⟩
    · rw [if_neg hm, if_neg hm]
      have hperm : (sort_by_promise g b (g.legal_moves b)).Perm (g.legal_moves b) :=
        sort_by_promise_perm g b _
      have hne : (sort_by_promise g b (g.legal_moves b)).map
          (fun mv => minimax g d (g.make_move b mv) (depth + 1)) ≠ [] := by
        intro he
        apply hm
        have := congrArg List.length he
        simpa [hperm.length_eq] using this
      have hmapperm : ((sort_by_promise g b (g.legal_moves b)).map
            (fun mv => minimax g d (g.make_move b mv) (depth + 1))).Perm
          ((g.legal_moves b).map
            (fun mv => minimax g d (g.make_move b mv) (depth + 1))) :=
        hperm.map _
      by_cases hstm : g.stm b = Color.White
      · rw [if_pos hstm, if_pos hstm]
        have hpol : (-32767 : Int) * Color.White.polarize = -32767 := by
          simp [Color.polarize]
        rw [hstm, hpol]
        have hspec := pureLoopW_spec
          (fun mv a => abPure g d (g.make_move b mv) (depth + 1) a beta)
          (fun mv => minimax g d (g.make_move b mv) (depth + 1)) beta
          (fun m => minimax_bound g hbound d _ _)
          (fun m a ha1 ha2 => ih (g.make_move b m) (depth + 1) a beta ha1 ha2 h3)
          (sort_by_promise g b (g.legal_moves b))
          ⟨-32767 * (g.stm b).polarize, none, d + 1⟩ alpha h1 h2
        dsimp only at hspec
        rw [hstm, hpol, foldl_max_eq_max_maxOf hne] at hspec
        have hmaxmem := maxOf_mem hne
        rcases List.mem_map.mp hmaxmem with ⟨mv, _, heq⟩
        have hbmv := minimax_bound g hbound d (g.make_move b mv) (depth + 1)
        have hmax : max (-32767 : Int)
            (maxOf ((sort_by_promise g b (g.legal_moves b)).map
              (fun mv => minimax g d (g.make_move b mv) (depth + 1)))) =
            maxOf ((sort_by_promise g b (g.legal_moves b)).map
              (fun mv => minimax g d (g.make_move b mv) (depth + 1))) := by
          rw [← heq] at *
          omega
        rw [hmax, maxOf_perm hmapperm] at hspec
        exact hspec
      · rw [if_neg hstm, if_neg hstm]
        have hstmB : g.stm b = Color.Black := by
          cases hst : g.stm b
          · exact absurd hst hstm
          · rfl
        have hpolB : (-32767 : Int) * Color.Black.polarize = 32767 := by
          simp [Color.polarize]
        rw [hstmB, hpolB]
        have hspec := pureLoopB_spec
          (fun mv bb => abPure g d (g.make_move b mv) (depth + 1) alpha bb)
          (fun mv => minimax g d (g.make_move b mv) (depth + 1)) alpha
          (fun m => minimax_bound g hbound d _ _)
          (fun m bb hb1 hb2 => ih (g.make_move b m) (depth + 1) alpha bb hb1 h2 hb2)
          (sort_by_promise g b (g.legal_moves b))
          ⟨-32767 * (g.stm b).polarize, none, d + 1⟩ beta h1 h3
        dsimp only at hspec
        rw [hstmB, hpolB, foldl_min_eq_min_minOf hne] at hspec
        have hminmem := minOf_mem hne
        rcases List.mem_map.mp hminmem with ⟨mv, _, heq⟩
        have hbmv := minimax_bound g hbound d (g.make_move b mv) (depth + 1)
        have hmin : min (32767 : Int)
            (minOf ((sort_by_promise g b (g.legal_moves b)).map
              (fun mv => minimax g d (g.make_move b mv) (depth + 1)))) =
            minOf ((sort_by_promise g b (g.legal_moves b)).map
              (fun mv => minimax g d (g.make_move b mv) (depth + 1))) := by
          rw [← heq] at *
          omega
        rw [hmin, minOf_perm hmapperm] at hspec
        exact hspec

/-- C3 as amended: with the transposition probe and store removed (the
pure alpha-beta recursion of search.rs), the root call with
alpha = i16::MIN and beta = i16::MAX returns the same eval as full minimax
to the same max_depth, for every game whose leaf evaluations stay within
±32766 (as the chess evaluator's do). With the transposition table in
place this fails: see the counterexample. -/
theorem C3_no_tp_root_equiv (g : Game B M)
    (hbound : ∀ b depth n, (leafEval g b depth n).natAbs ≤ 32766)
    (board : B) (max_depth : Nat) :
    (abPure g max_depth board 0 (-32768) 32767).eval = minimax g max_depth board 0 := by
  have hb2 : ∀ b depth n, -32766 ≤ leafEval g b depth n ∧ leafEval g b depth n ≤ 32766 := by
    intro b depth n
    have := hbound b depth n
    omega
  have h := abPure_threeway g hb2 max_depth board 0 (-32768) 32767
    (by norm_num) (by norm_num) (by norm_num)
  have hbnd := minimax_bound g hb2 max_depth board 0
  exact h.1 (by omega) (by omega)

/-- Witness for the amended C3 at a concrete input: on the small game the
table-free root search and minimax agree (both are 5, the value the
table-carrying search got wrong). -/
theorem C3_witness :
    (abPure gC3 3 0 0 (-32768) 32767).eval = minimax gC3 3 0 0 :=
  C3_no_tp_root_equiv gC3
    (by
      intro b depth n
      have hsc : gC3.score b n = 100 ∨ gC3.score b n = 50 ∨ gC3.score b n = 0 ∨
          gC3.score b n = 1 ∨ gC3.score b n = 10 ∨ gC3.score b n = 5 := by
        rcases b with _ | _ | _ | _ | _ | _ | _ | _ | b
        · simp [gC3]
        · simp [gC3]
        · simp [gC3]
        · simp [gC3]
        · simp [gC3]
        · simp [gC3]
        · by_cases hn : n = 0 <;> simp [gC3, hn]
        · simp [gC3]
        · simp [gC3]
      simp only [leafEval]
      rcases hsc with h | h | h | h | h | h <;> rw [h] <;> norm_num [MATE])
    0 3

end Yobmef
